import Mathlib

/-!
Shallow embedding of `commitment_set.py`: the liveness-mask run-length
transform and the self-describing Huffman codec, with proofs about the
specification's claims.  Python bit lists become `List Bool`, the mutable
bit queue of the decoder becomes explicit state passing, the `heapq`
operations are embedded step by step, and loops whose termination is not
structural carry an explicit fuel argument which the wrappers always
instantiate with a sufficient bound derived from the input.  Fallible
operations return `Except Err`.
-/

namespace CommitmentSet

/-- Error outcomes of the embedded operations.  `truncatedInput` models the
Python IndexError raised by popping from an exhausted bit list (the spec's
TruncatedInput), `invalidInput` models indexing `trees[0]` of an empty forest
and a malformed textual mask (the spec's InvalidInput), and `keyError` models
a failed dictionary lookup. -/
inductive Err where
  | truncatedInput
  | invalidInput
  | keyError
deriving DecidableEq

/-- Fueled body of `int_to_bit_list`; the fuel merely bounds the Python
while-loop and `n` itself is always a sufficient bound. -/
def int_to_bit_list_fuel : Nat → Nat → List Bool
  | 0, _ => []
  | fuel + 1, n => if n = 0 then [] else (n % 2 == 1) :: int_to_bit_list_fuel fuel (n / 2)

/-- Binary digits of `n`, least significant bit first, with no trailing
(high-order) zeros; the empty list for `0`. -/
def int_to_bit_list (n : Nat) : List Bool :=
  int_to_bit_list_fuel n n

/-- Value of a least-significant-bit-first digit list. -/
def bit_list_to_int : List Bool → Nat
  | [] => 0
  | b :: rest => (if b then 1 else 0) + 2 * bit_list_to_int rest

/-- A (sub)tree of Huffman codes: the two Python subclasses
`HuffmanCodeLeaf` and `HuffmanCodeNonLeaf` collapsed into one inductive.
`count` is `none` for trees reconstructed by parsing, where occurrence
counts are not transmitted. -/
inductive HuffmanCodeTree where
  | leaf (count : Option Nat) (symbol : Nat)
  | nonLeaf (count : Option Nat) (left right : HuffmanCodeTree)
deriving DecidableEq

def HuffmanCodeTree.count : HuffmanCodeTree → Option Nat
  | .leaf c _ => c
  | .nonLeaf c _ _ => c

/-- Constructor of `HuffmanCodeNonLeaf`: the weight is the sum of the
children's weights when both are known, else unknown. -/
def mkNonLeaf (l r : HuffmanCodeTree) : HuffmanCodeTree :=
  .nonLeaf
    (match l.count, r.count with
     | some a, some b => some (a + b)
     | _, _ => none) l r

/-- The ad hoc less-than used to order trees on the heap; comparing an
unknown weight would raise in Python and never happens during
construction. -/
def tree_lt (a b : HuffmanCodeTree) : Bool :=
  match a.count, b.count with
  | some x, some y => decide (x < y)
  | _, _ => false

/-- Self-describing serialization: a leaf is the flag `1`, the symbol's bit
length in unary (one `0` per bit, terminated by `1`), then the symbol's
bits; an internal node is the flag `0` followed by both subtrees. -/
def serialize : HuffmanCodeTree → List Bool
  | .leaf _ symbol =>
    let symbol_bits := int_to_bit_list symbol
    true :: (symbol_bits.map (fun _ => false) ++ (true :: symbol_bits))
  | .nonLeaf _ l r => false :: (serialize l ++ serialize r)

/-- Recursive helper of `symbol_prefix_map`: the Python version mutates a
dict, modelled here by emitting bindings in traversal order. -/
def spm_helper : HuffmanCodeTree → List Bool → List (Nat × List Bool)
  | .leaf _ s, p => [(s, p)]
  | .nonLeaf _ l r, p => spm_helper l (p ++ [false]) ++ spm_helper r (p ++ [true])

def symbol_prefix_map (t : HuffmanCodeTree) : List (Nat × List Bool) :=
  spm_helper t []

/-- Lookup in the association list modelling the Python dict: the most
recently inserted binding for a key wins. -/
def dict_find : List (Nat × List Bool) → Nat → Option (List Bool)
  | [], _ => none
  | e :: rest, k =>
    match dict_find rest k with
    | some v => some v
    | none => if e.1 = k then some e.2 else none

/-- Out-of-range reads return a junk leaf; every read performed by the heap
routines is in range. -/
def hget (heap : List HuffmanCodeTree) (i : Nat) : HuffmanCodeTree :=
  heap.getD i (.leaf none 0)

/-- Child-descent loop of CPython's `heapq._siftup`; the fuel bounds the
loop and the initial `endpos` is always sufficient since `pos` strictly
increases below `endpos`. -/
def siftup_loop : Nat → List HuffmanCodeTree → Nat → Nat → Nat → List HuffmanCodeTree × Nat
  | 0, heap, pos, _, _ => (heap, pos)
  | fuel + 1, heap, pos, childpos, endpos =>
    if childpos < endpos then
      let childpos :=
        if childpos + 1 < endpos && !(tree_lt (hget heap childpos) (hget heap (childpos + 1)))
        then childpos + 1 else childpos
      let heap := heap.set pos (hget heap childpos)
      siftup_loop fuel heap childpos (2 * childpos + 1) endpos
    else (heap, pos)

/-- Parent-ascent loop of CPython's `heapq._siftdown`; the fuel bounds the
loop and the initial `pos` is always sufficient since `pos` strictly
decreases. -/
def siftdown_loop : Nat → List HuffmanCodeTree → HuffmanCodeTree → Nat → Nat → List HuffmanCodeTree × Nat
  | 0, heap, _, _, pos => (heap, pos)
  | fuel + 1, heap, newitem, startpos, pos =>
    if startpos < pos then
      let parentpos := (pos - 1) / 2
      let parent := hget heap parentpos
      if tree_lt newitem parent then
        siftdown_loop fuel (heap.set pos parent) newitem startpos parentpos
      else (heap, pos)
    else (heap, pos)

/-- CPython's `heapq._siftdown`. -/
def siftdown (heap : List HuffmanCodeTree) (startpos pos : Nat) : List HuffmanCodeTree :=
  let newitem := hget heap pos
  let r := siftdown_loop pos heap newitem startpos pos
  r.1.set r.2 newitem

/-- CPython's `heapq._siftup`. -/
def siftup (heap : List HuffmanCodeTree) (pos : Nat) : List HuffmanCodeTree :=
  let endpos := heap.length
  let newitem := hget heap pos
  let r := siftup_loop endpos heap pos (2 * pos + 1) endpos
  let heap1 := r.1.set r.2 newitem
  siftdown heap1 pos r.2

/-- Descending loop of `heapq.heapify`: `_siftup` at indices
`n / 2 - 1, …, 0`. -/
def heapify_loop : Nat → List HuffmanCodeTree → List HuffmanCodeTree
  | 0, heap => heap
  | i + 1, heap => heapify_loop i (siftup heap i)

/-- CPython's `heapq.heapify`. -/
def heapify (heap : List HuffmanCodeTree) : List HuffmanCodeTree :=
  heapify_loop (heap.length / 2) heap

/-- CPython's `heapq.heappop`; `none` models the IndexError on an empty
heap, which `for_symbols` never triggers. -/
def heappop (heap : List HuffmanCodeTree) : Option (HuffmanCodeTree × List HuffmanCodeTree) :=
  match heap.getLast? with
  | none => none
  | some lastelt =>
    let heap := heap.dropLast
    match heap with
    | [] => some (lastelt, [])
    | _ :: _ =>
      let returnitem := hget heap 0
      let heap := heap.set 0 lastelt
      some (returnitem, siftup heap 0)

/-- CPython's `heapq.heappush`. -/
def heappush (heap : List HuffmanCodeTree) (item : HuffmanCodeTree) : List HuffmanCodeTree :=
  let heap := heap ++ [item]
  siftdown heap 0 (heap.length - 1)

/-- `collections.Counter(symbols).items()`: one `(symbol, count)` pair per
distinct symbol, in order of first occurrence. -/
def counter_items (symbols : List Nat) : List (Nat × Nat) :=
  symbols.foldl
    (fun acc s =>
      if acc.any (fun e => e.1 == s) then
        acc.map (fun e => if e.1 == s then (e.1, e.2 + 1) else e)
      else acc ++ [(s, 1)])
    []

/-- Merge loop of `for_symbols`: while more than one tree remains, pop the
two lightest and push their merge.  Each iteration shrinks the forest by
one, so the initial length is sufficient fuel. -/
def merge_loop : Nat → List HuffmanCodeTree → List HuffmanCodeTree
  | 0, trees => trees
  | fuel + 1, trees =>
    if trees.length > 1 then
      match heappop trees with
      | some (left, trees1) =>
        match heappop trees1 with
        | some (right, trees2) => merge_loop fuel (heappush trees2 (mkNonLeaf left right))
        | none => trees1
      | none => trees
    else trees

/-- `HuffmanCodeTree.for_symbols`: build one leaf per distinct symbol,
heapify, merge down to one tree.  Indexing `trees[0]` of the empty forest
raises in Python, modelled as `invalidInput`. -/
def HuffmanCodeTree.for_symbols (symbols : List Nat) : Except Err HuffmanCodeTree :=
  let trees := (counter_items symbols).map (fun sc => HuffmanCodeTree.leaf (some sc.2) sc.1)
  let trees := heapify trees
  let trees := merge_loop trees.length trees
  match trees with
  | t :: _ => .ok t
  | [] => .error .invalidInput

/-- Unary-length loop of `parse_leaf`: count leading `0` bits up to and
including the terminating `1`. -/
def parse_leaf_loop : List Bool → Nat → Except Err (Nat × List Bool)
  | [], _ => .error .truncatedInput
  | true :: rest, n => .ok (n, rest)
  | false :: rest, n => parse_leaf_loop rest (n + 1)

/-- `HuffmanCodeLeaf.parse_leaf`: read the unary symbol length, then that
many bits of the symbol.  `bits[:symbol_len]` silently reads fewer bits when
the list is short, exactly as the Python slice does. -/
def parse_leaf (bits : List Bool) : Except Err (HuffmanCodeTree × List Bool) :=
  match parse_leaf_loop bits 0 with
  | .error e => .error e
  | .ok (symbol_len, rest) =>
    .ok (.leaf none (bit_list_to_int (rest.take symbol_len)), rest.drop symbol_len)

/-- Fueled body of `HuffmanCodeTree.parse`: flag bit, then a leaf or two
recursive subtrees.  Every recursive call strips at least one bit first, so
the input length is sufficient fuel; exhausted fuel reports the same
truncation error as an exhausted bit list. -/
def parseTree : Nat → List Bool → Except Err (HuffmanCodeTree × List Bool)
  | _, [] => .error .truncatedInput
  | 0, _ :: _ => .error .truncatedInput
  | fuel + 1, b :: rest =>
    if b then parse_leaf rest
    else
      match parseTree fuel rest with
      | .error e => .error e
      | .ok (left, rest1) =>
        match parseTree fuel rest1 with
        | .error e => .error e
        | .ok (right, rest2) => .ok (mkNonLeaf left right, rest2)

/-- `HuffmanCodeTree.parse`, consuming from the front of `bits` and
returning the unconsumed remainder. -/
def HuffmanCodeTree.parse (bits : List Bool) : Except Err (HuffmanCodeTree × List Bool) :=
  parseTree bits.length bits

/-- Payload loop of `huffman_compress`: append each symbol's codeword; a
missing dictionary key would raise KeyError in Python. -/
def encode_symbols (spm : List (Nat × List Bool)) : List Nat → Except Err (List Bool)
  | [] => .ok []
  | s :: rest =>
    match dict_find spm s with
    | none => .error .keyError
    | some cw =>
      match encode_symbols spm rest with
      | .error e => .error e
      | .ok tail => .ok (cw ++ tail)

/-- `huffman_compress`: serialized tree followed by the concatenated
codewords of the input symbols. -/
def huffman_compress (symbols : List Nat) : Except Err (List Bool) :=
  match HuffmanCodeTree.for_symbols symbols with
  | .error e => .error e
  | .ok code_tree =>
    match encode_symbols (symbol_prefix_map code_tree) symbols with
    | .error e => .error e
    | .ok payload => .ok (serialize code_tree ++ payload)

/-- Inner walk of `huffman_decompress`: descend left on `0` and right on
`1` until a leaf; popping from an empty list raises, modelled as
`truncatedInput`.  On a leaf root no bit is consumed. -/
def decodeOne : HuffmanCodeTree → List Bool → Except Err (Nat × List Bool)
  | .leaf _ s, bits => .ok (s, bits)
  | .nonLeaf _ _ _, [] => .error .truncatedInput
  | .nonLeaf _ l r, b :: rest => decodeOne (if b then r else l) rest

/-- Outer `while bits` loop of `huffman_decompress`.  The Python loop is
unbounded; `none` means the given number of iterations did not exhaust the
bits, and a result that is `none` for every fuel is a non-terminating run. -/
def decodeLoop (t : HuffmanCodeTree) : Nat → List Bool → Option (Except Err (List Nat))
  | _, [] => some (.ok [])
  | 0, _ :: _ => none
  | fuel + 1, b :: rest =>
    match decodeOne t (b :: rest) with
    | .error e => some (.error e)
    | .ok (s, rest1) =>
      match decodeLoop t fuel rest1 with
      | none => none
      | some (.error e) => some (.error e)
      | some (.ok syms) => some (.ok (s :: syms))

/-- `huffman_decompress`: parse the tree from the front, then repeatedly
walk it until the bits are exhausted (or the fuel runs out, see
`decodeLoop`). -/
def huffman_decompress (bits : List Bool) (fuel : Nat) : Option (Except Err (List Nat)) :=
  match HuffmanCodeTree.parse bits with
  | .error e => some (.error e)
  | .ok (t, rest) => decodeLoop t fuel rest

/-- Erase all weights of a tree, keeping topology and leaf symbols; this is
exactly the shape `HuffmanCodeTree.parse` reconstructs. -/
def forget_counts : HuffmanCodeTree → HuffmanCodeTree
  | .leaf _ s => .leaf none s
  | .nonLeaf _ l r => .nonLeaf none (forget_counts l) (forget_counts r)

/-- The bit path `p` descends from the root of `t` (left on `false`, right
on `true`) and ends exactly at a leaf carrying symbol `s`. -/
def leadsToLeaf : HuffmanCodeTree → List Bool → Nat → Prop
  | .leaf _ s0, [], s => s0 = s
  | .leaf _ _, _ :: _, _ => False
  | .nonLeaf _ _ _, [], _ => False
  | .nonLeaf _ l _, false :: p, s => leadsToLeaf l p s
  | .nonLeaf _ _ r, true :: p, s => leadsToLeaf r p s

namespace LivenessMask

/-- Code points of the zero digit of every contiguous run of ten Unicode
decimal digits (category Nd, Unicode 14.0).  CPython's `int()` accepts a
one-character string exactly when the character lies in one of these runs,
its value being the offset from the run's zero. -/
def nd_zero_points : List Nat := [
  0x30, 0x660, 0x6F0, 0x7C0, 0x966, 0x9E6, 0xA66, 0xAE6,
  0xB66, 0xBE6, 0xC66, 0xCE6, 0xD66, 0xDE6, 0xE50, 0xED0,
  0xF20, 0x1040, 0x1090, 0x17E0, 0x1810, 0x1946, 0x19D0, 0x1A80,
  0x1A90, 0x1B50, 0x1BB0, 0x1C40, 0x1C50, 0xA620, 0xA8D0, 0xA900,
  0xA9D0, 0xA9F0, 0xAA50, 0xABF0, 0xFF10, 0x104A0, 0x10D30, 0x11066,
  0x110F0, 0x11136, 0x111D0, 0x112F0, 0x11450, 0x114D0, 0x11650, 0x116C0,
  0x11730, 0x118E0, 0x11950, 0x11C50, 0x11D50, 0x11DA0, 0x16A60, 0x16AC0,
  0x16B50, 0x1D7CE, 0x1D7D8, 0x1D7E2, 0x1D7EC, 0x1D7F6, 0x1E140, 0x1E2F0,
  0x1E950, 0x1FBF0]

/-- The decimal value CPython's `int()` assigns a single character; `none`
models the ValueError raised when the character is not a Unicode decimal
digit. -/
def char_decimal (c : Char) : Option Nat :=
  (nd_zero_points.find? (fun z => decide (z ≤ c.toNat) && decide (c.toNat ≤ z + 9))).map
    (fun z => c.toNat - z)

/-- One character of `from_bit_string`: Python's `bool(int(c))` succeeds on
any Unicode decimal digit (a zero-valued digit reads as dead, any other
digit as live) and raises ValueError otherwise, modelled as
`invalidInput`. -/
def char_bit (c : Char) : Except Err Bool :=
  match char_decimal c with
  | some v => .ok (decide (v ≠ 0))
  | none => .error .invalidInput

/-- `LivenessMask.from_bit_string` on the character sequence of the input
string, left to right, stopping at the first bad character. -/
def from_bit_string : List Char → Except Err (List Bool)
  | [] => .ok []
  | c :: rest =>
    match char_bit c with
    | .error e => .error e
    | .ok b =>
      match from_bit_string rest with
      | .error e => .error e
      | .ok bs => .ok (b :: bs)

/-- The textual rendering of a mask produced by `__repr__`: one `0` or `1`
character per element. -/
def mask_repr (m : List Bool) : List Char :=
  m.map (fun b => if b then '1' else '0')

/-- `LivenessMask.to_rle`: lengths of the pieces of the textual rendering
split at every `1`, i.e. the lengths of the zero runs around the ones,
including the (possibly empty) leading and trailing runs. -/
def to_rle : List Bool → List Nat
  | [] => [0]
  | false :: rest =>
    match to_rle rest with
    | r :: rs => (r + 1) :: rs
    | [] => [1]
  | true :: rest => 0 :: to_rle rest

/-- The string `'1'.join('0' * run for run in rle)` as a character list. -/
def rle_chars : List Nat → List Char
  | [] => []
  | [r] => List.replicate r '0'
  | r :: s :: rest => List.replicate r '0' ++ '1' :: rle_chars (s :: rest)

/-- `LivenessMask.from_rle`: join the zero runs with single ones and read
the result back through `from_bit_string`. -/
def from_rle (rle : List Nat) : Except Err (List Bool) :=
  from_bit_string (rle_chars rle)

/-- The boolean mask denoted by a run-length list; `from_rle` always
succeeds and returns exactly this (proved below). -/
def from_rle_bits : List Nat → List Bool
  | [] => []
  | [r] => List.replicate r false
  | r :: s :: rest => List.replicate r false ++ true :: from_rle_bits (s :: rest)

end LivenessMask

/-! Bit-list utilities: the two conversions are exact inverses. -/

theorem bit_list_to_int_fuel (fuel : Nat) :
    ∀ n, n ≤ fuel → bit_list_to_int (int_to_bit_list_fuel fuel n) = n := by
  induction fuel with
  | zero =>
    intro n h
    have hn : n = 0 := by omega
    subst hn; rfl
  | succ f ih =>
    intro n h
    by_cases h0 : n = 0
    · subst h0; rfl
    · have hlt : n / 2 < n := Nat.div_lt_self (Nat.pos_of_ne_zero h0) (by omega)
      have hdiv : n / 2 ≤ f := by omega
      rw [int_to_bit_list_fuel, if_neg h0, bit_list_to_int, ih _ hdiv]
      have hm := Nat.div_add_mod n 2
      rcases Nat.mod_two_eq_zero_or_one n with h2 | h2 <;> rw [h2] <;> simp <;> omega

theorem bit_list_to_int_int_to_bit_list (n : Nat) :
    bit_list_to_int (int_to_bit_list n) = n :=
  bit_list_to_int_fuel n n le_rfl

theorem map_const_false (l : List Bool) :
    l.map (fun _ => false) = List.replicate l.length false := by
  induction l with
  | nil => rfl
  | cons b t ih => simp [List.replicate_succ, ih]

/-! Leaf parsing: the unary length loop inverts the unary length prefix. -/

theorem parse_leaf_loop_replicate (k : Nat) (rest : List Bool) :
    ∀ acc, parse_leaf_loop (List.replicate k false ++ true :: rest) acc = .ok (acc + k, rest) := by
  induction k with
  | zero => intro acc; rfl
  | succ j ih =>
    intro acc
    rw [List.replicate_succ, List.cons_append, parse_leaf_loop, ih (acc + 1)]
    have : acc + 1 + j = acc + (j + 1) := by omega
    rw [this]

theorem parse_leaf_loop_all_false (k : Nat) :
    ∀ acc, parse_leaf_loop (List.replicate k false) acc = .error .truncatedInput := by
  induction k with
  | zero => intro acc; rfl
  | succ j ih => intro acc; rw [List.replicate_succ, parse_leaf_loop, ih (acc + 1)]

theorem parse_leaf_ser (sb rest : List Bool) :
    parse_leaf (List.replicate sb.length false ++ true :: (sb ++ rest)) =
      .ok (.leaf none (bit_list_to_int sb), rest) := by
  rw [parse_leaf, parse_leaf_loop_replicate sb.length (sb ++ rest) 0]
  simp [List.take_left, List.drop_left]

/-! Parsing inverts serialization, consuming exactly the serialized bits. -/

theorem count_forget (t : HuffmanCodeTree) : (forget_counts t).count = none := by
  cases t <;> rfl

theorem mkNonLeaf_forget (l r : HuffmanCodeTree) :
    mkNonLeaf (forget_counts l) (forget_counts r) =
      .nonLeaf none (forget_counts l) (forget_counts r) := by
  rw [mkNonLeaf, count_forget, count_forget]

theorem parseTree_serialize (t : HuffmanCodeTree) :
    ∀ fuel rest, (serialize t).length + rest.length ≤ fuel →
      parseTree fuel (serialize t ++ rest) = .ok (forget_counts t, rest) := by
  induction t with
  | leaf c s =>
    intro fuel rest h
    rw [serialize] at h ⊢
    simp only [map_const_false] at h ⊢
    cases fuel with
    | zero => simp at h
    | succ f =>
      rw [List.cons_append, parseTree, if_pos rfl, List.append_assoc, List.cons_append,
        parse_leaf_ser, bit_list_to_int_int_to_bit_list]
      rfl
  | nonLeaf c l r ihl ihr =>
    intro fuel rest h
    rw [serialize] at h ⊢
    cases fuel with
    | zero => simp at h
    | succ f =>
      have hlen : (serialize l).length + (serialize r).length + rest.length + 1 ≤ f + 1 := by
        simp only [List.length_cons, List.length_append] at h; omega
      rw [List.cons_append, parseTree, if_neg (by simp), List.append_assoc]
      rw [ihl f (serialize r ++ rest) (by simp only [List.length_append]; omega)]
      simp only [ihr f rest (by omega), mkNonLeaf_forget]
      rfl

theorem parse_serialize (t : HuffmanCodeTree) (rest : List Bool) :
    HuffmanCodeTree.parse (serialize t ++ rest) = .ok (forget_counts t, rest) := by
  rw [HuffmanCodeTree.parse]
  exact parseTree_serialize t _ rest (by simp)

/-! Parsing a strict prefix of a serialized tree either reports truncation
or silently consumes the entire prefix (the short Python slice
`bits[:symbol_len]` absorbs whatever is left). -/

theorem parseTree_nil (fuel : Nat) : parseTree fuel [] = .error .truncatedInput := by
  cases fuel <;> rfl

theorem replicate_of_append (p : List Bool) :
    ∀ w k, p ++ w = List.replicate k false → p = List.replicate p.length false := by
  induction p with
  | nil => intro w k _; rfl
  | cons b t ih =>
    intro w k h
    cases k with
    | zero => simp at h
    | succ j =>
      rw [List.replicate_succ] at h
      injection h with h1 h2
      subst h1
      rw [List.length_cons, List.replicate_succ]
      exact congrArg (List.cons false) (ih w j h2)

theorem parse_leaf_cut (sb p q : List Bool)
    (hpq : p ++ q = List.replicate sb.length false ++ true :: sb) (hq : q ≠ []) :
    parse_leaf p = .error .truncatedInput ∨ ∃ u, parse_leaf p = .ok (u, []) := by
  rcases List.append_eq_append_iff.mp hpq with ⟨w, hw1, _⟩ | ⟨w, hw1, hw2⟩
  · left
    rw [replicate_of_append p w sb.length hw1.symm, parse_leaf, parse_leaf_loop_all_false]
  · cases w with
    | nil =>
      left
      simp only [List.append_nil] at hw1
      rw [hw1, parse_leaf, parse_leaf_loop_all_false]
    | cons bw w2 =>
      injection hw2 with h1 h2
      subst h1
      subst hw1
      have hlq := congrArg List.length h2
      simp only [List.append_eq, List.length_append] at hlq
      have hq0 : q.length ≠ 0 := fun h0 => hq (List.length_eq_zero.mp h0)
      have hlen : w2.length ≤ sb.length := by omega
      right
      refine ⟨.leaf none (bit_list_to_int w2), ?_⟩
      rw [parse_leaf]
      simp only [parse_leaf_loop_replicate sb.length w2 0, Nat.zero_add,
        List.take_of_length_le hlen, List.drop_eq_nil_of_le hlen]

theorem parseTree_cut (t : HuffmanCodeTree) :
    ∀ p q fuel, p ++ q = serialize t → q ≠ [] → p.length ≤ fuel →
      parseTree fuel p = .error .truncatedInput ∨ ∃ u, parseTree fuel p = .ok (u, []) := by
  induction t with
  | leaf c s =>
    intro p q fuel hpq hq hf
    rw [serialize] at hpq
    simp only [map_const_false] at hpq
    cases p with
    | nil => exact Or.inl (parseTree_nil fuel)
    | cons b p2 =>
      rw [List.cons_append] at hpq
      injection hpq with h1 h2
      subst h1
      cases fuel with
      | zero => simp at hf
      | succ f =>
        rw [parseTree, if_pos rfl]
        exact parse_leaf_cut (int_to_bit_list s) p2 q h2 hq
  | nonLeaf c l r ihl ihr =>
    intro p q fuel hpq hq hf
    rw [serialize] at hpq
    cases p with
    | nil => exact Or.inl (parseTree_nil fuel)
    | cons b p2 =>
      rw [List.cons_append] at hpq
      injection hpq with h1 h2
      subst h1
      cases fuel with
      | zero => simp at hf
      | succ f =>
        have hf2 : p2.length ≤ f := by simp only [List.length_cons] at hf; omega
        rw [parseTree, if_neg (by simp)]
        rcases List.append_eq_append_iff.mp h2 with ⟨w, hw1, hw2⟩ | ⟨w, hw1, hw2⟩
        · cases w with
          | nil =>
            left
            simp only [List.append_nil] at hw1
            have hser : parseTree f p2 = .ok (forget_counts l, []) := by
              have hb : (serialize l).length + ([] : List Bool).length ≤ f := by
                rw [hw1]; simpa using hf2
              simpa [hw1] using parseTree_serialize l f [] hb
            simp only [hser, parseTree_nil]
          | cons bw w2 =>
            rcases ihl p2 (bw :: w2) f hw1.symm (by simp) hf2 with herr | ⟨u, hok⟩
            · left; simp only [herr]
            · left; simp only [hok, parseTree_nil]
        · have hlenp2 : p2.length = (serialize l).length + w.length := by
            rw [hw1]; simp
          have hser : parseTree f p2 = .ok (forget_counts l, w) := by
            rw [hw1]; exact parseTree_serialize l f w (by omega)
          rcases ihr w q f hw2.symm hq (by omega) with herr | ⟨u, hok⟩
          · left; simp only [hser, herr]
          · right; refine ⟨mkNonLeaf (forget_counts l) u, ?_⟩
            simp only [hser, hok]

/-! Codeword paths: every binding of the symbol map is a root-to-leaf path,
the decoder follows such a path exactly, and two paths of the same tree are
never proper prefixes of one another. -/

theorem dict_find_mem (d : List (Nat × List Bool)) (k : Nat) (v : List Bool) :
    dict_find d k = some v → (k, v) ∈ d := by
  induction d with
  | nil => intro h; exact absurd h (by rw [dict_find]; simp)
  | cons e rest ih =>
    obtain ⟨e1, e2⟩ := e
    intro h
    rw [dict_find] at h
    cases hrec : dict_find rest k with
    | some v0 =>
      rw [hrec] at h
      injection h with h1
      subst h1
      exact List.mem_cons_of_mem _ (ih hrec)
    | none =>
      rw [hrec] at h
      by_cases he : e1 = k
      · rw [if_pos he] at h
        injection h with h1
        subst h1 he
        exact List.mem_cons_self _ _
      · rw [if_neg he] at h
        exact absurd h (by simp)

theorem spm_helper_mem (t : HuffmanCodeTree) :
    ∀ pre s p, (s, p) ∈ spm_helper t pre → ∃ q, p = pre ++ q ∧ leadsToLeaf t q s := by
  induction t with
  | leaf c s0 =>
    intro pre s p h
    simp only [spm_helper, List.mem_singleton, Prod.mk.injEq] at h
    obtain ⟨h1, h2⟩ := h
    exact ⟨[], by rw [h2, List.append_nil], by simp only [leadsToLeaf]; exact h1.symm⟩
  | nonLeaf c l r ihl ihr =>
    intro pre s p h
    simp only [spm_helper, List.mem_append] at h
    rcases h with h | h
    · obtain ⟨q, hq1, hq2⟩ := ihl (pre ++ [false]) s p h
      exact ⟨false :: q, by rw [hq1, List.append_assoc]; rfl,
        by simp only [leadsToLeaf]; exact hq2⟩
    · obtain ⟨q, hq1, hq2⟩ := ihr (pre ++ [true]) s p h
      exact ⟨true :: q, by rw [hq1, List.append_assoc]; rfl,
        by simp only [leadsToLeaf]; exact hq2⟩

theorem leadsToLeaf_forget (t : HuffmanCodeTree) :
    ∀ p s, leadsToLeaf t p s → leadsToLeaf (forget_counts t) p s := by
  induction t with
  | leaf c s0 =>
    intro p s h
    cases p with
    | nil => exact h
    | cons b p2 => simp only [leadsToLeaf] at h
  | nonLeaf c l r ihl ihr =>
    intro p s h
    cases p with
    | nil => simp only [leadsToLeaf] at h
    | cons b p2 =>
      cases b with
      | false =>
        simp only [leadsToLeaf] at h
        simp only [forget_counts, leadsToLeaf]
        exact ihl p2 s h
      | true =>
        simp only [leadsToLeaf] at h
        simp only [forget_counts, leadsToLeaf]
        exact ihr p2 s h

theorem leadsToLeaf_ne_nil (c : Option Nat) (l r : HuffmanCodeTree) (p : List Bool) (s : Nat) :
    leadsToLeaf (.nonLeaf c l r) p s → p ≠ [] := by
  intro h hnil
  subst hnil
  simp only [leadsToLeaf] at h

theorem decodeOne_path (t : HuffmanCodeTree) :
    ∀ p s rest, leadsToLeaf t p s → decodeOne t (p ++ rest) = .ok (s, rest) := by
  induction t with
  | leaf c s0 =>
    intro p s rest h
    cases p with
    | nil => simp only [leadsToLeaf] at h; subst h; simp [decodeOne]
    | cons b p2 => simp only [leadsToLeaf] at h
  | nonLeaf c l r ihl ihr =>
    intro p s rest h
    cases p with
    | nil => simp only [leadsToLeaf] at h
    | cons b p2 =>
      rw [List.cons_append, decodeOne]
      cases b with
      | false => simp only [leadsToLeaf] at h; simpa using ihl p2 s rest h
      | true => simp only [leadsToLeaf] at h; simpa using ihr p2 s rest h

theorem decodeOne_cut (t : HuffmanCodeTree) :
    ∀ p s m, leadsToLeaf t p s → m < p.length →
      decodeOne t (p.take m) = .error .truncatedInput := by
  induction t with
  | leaf c s0 =>
    intro p s m h hm
    cases p with
    | nil => simp at hm
    | cons b p2 => simp only [leadsToLeaf] at h
  | nonLeaf c l r ihl ihr =>
    intro p s m h hm
    cases p with
    | nil => simp only [leadsToLeaf] at h
    | cons b p2 =>
      cases m with
      | zero => rw [List.take_zero]; rfl
      | succ m2 =>
        rw [List.take_succ_cons, decodeOne]
        have hm2 : m2 < p2.length := by simp at hm; omega
        cases b with
        | false => simp only [leadsToLeaf] at h; simpa using ihl p2 s m2 h hm2
        | true => simp only [leadsToLeaf] at h; simpa using ihr p2 s m2 h hm2

theorem leads_unique (t : HuffmanCodeTree) :
    ∀ qa qb a b, leadsToLeaf t qa a → leadsToLeaf t qb b → qa <+: qb →
      qa = qb ∧ a = b := by
  induction t with
  | leaf c s0 =>
    intro qa qb a b ha hb _
    cases qa with
    | nil =>
      cases qb with
      | nil =>
        simp only [leadsToLeaf] at ha hb
        exact ⟨rfl, ha.symm.trans hb⟩
      | cons bb qb2 => simp only [leadsToLeaf] at hb
    | cons ba qa2 => simp only [leadsToLeaf] at ha
  | nonLeaf c l r ihl ihr =>
    intro qa qb a b ha hb hpre
    cases qa with
    | nil => simp only [leadsToLeaf] at ha
    | cons ba qa2 =>
      cases qb with
      | nil => simp only [leadsToLeaf] at hb
      | cons bb qb2 =>
        obtain ⟨hhead, htail⟩ := List.cons_prefix_cons.mp hpre
        subst hhead
        cases ba with
        | false =>
          simp only [leadsToLeaf] at ha hb
          obtain ⟨h1, h2⟩ := ihl qa2 qb2 a b ha hb htail
          exact ⟨by rw [h1], h2⟩
        | true =>
          simp only [leadsToLeaf] at ha hb
          obtain ⟨h1, h2⟩ := ihr qa2 qb2 a b ha hb htail
          exact ⟨by rw [h1], h2⟩

/-! The decode loop on (prefixes of) an encoded payload. -/

theorem decodeLoop_nil (t : HuffmanCodeTree) (fuel : Nat) :
    decodeLoop t fuel [] = some (.ok []) := by
  cases fuel <;> rfl

theorem decodeLoop_cons (t : HuffmanCodeTree) (fuel : Nat) (b : Bool) (rest : List Bool) :
    decodeLoop t (fuel + 1) (b :: rest) =
      match decodeOne t (b :: rest) with
      | .error e => some (.error e)
      | .ok (s, rest1) =>
        match decodeLoop t fuel rest1 with
        | none => none
        | some (.error e) => some (.error e)
        | some (.ok syms) => some (.ok (s :: syms)) := rfl

theorem decodeOne_leaf (c : Option Nat) (s : Nat) (bits : List Bool) :
    decodeOne (.leaf c s) bits = .ok (s, bits) := by
  rw [decodeOne]

theorem decodeLoop_leaf_none (c : Option Nat) (s : Nat) :
    ∀ fuel bits, bits ≠ [] → decodeLoop (.leaf c s) fuel bits = none := by
  intro fuel
  induction fuel with
  | zero =>
    intro bits h
    cases bits with
    | nil => exact absurd rfl h
    | cons b r => rfl
  | succ f ih =>
    intro bits h
    cases bits with
    | nil => exact absurd rfl h
    | cons b r =>
      rw [decodeLoop_cons, decodeOne_leaf]
      simp only [ih (b :: r) h]

theorem encode_symbols_leaf (c : Option Nat) (sym : Nat) :
    ∀ ss payload, encode_symbols (symbol_prefix_map (.leaf c sym)) ss = .ok payload →
      payload = [] := by
  intro ss
  induction ss with
  | nil =>
    intro payload h
    rw [encode_symbols] at h
    injection h with h1
    exact h1.symm
  | cons s rest ih =>
    intro payload h
    rw [encode_symbols] at h
    by_cases hs : sym = s
    · rw [show dict_find (symbol_prefix_map (.leaf c sym)) s = some [] by
        simp [symbol_prefix_map, spm_helper, dict_find, hs]] at h
      cases hrec : encode_symbols (symbol_prefix_map (.leaf c sym)) rest with
      | error e => rw [hrec] at h; exact absurd h (by simp)
      | ok tail =>
        rw [hrec] at h
        injection h with h1
        rw [← h1, List.nil_append]
        exact ih tail hrec
    · rw [show dict_find (symbol_prefix_map (.leaf c sym)) s = none by
        simp [symbol_prefix_map, spm_helper, dict_find, hs]] at h
      exact absurd h (by simp)

theorem encode_symbols_length (t : HuffmanCodeTree) (c0 : Option Nat) (l0 r0 : HuffmanCodeTree)
    (ht : t = .nonLeaf c0 l0 r0) :
    ∀ ss payload, encode_symbols (symbol_prefix_map t) ss = .ok payload →
      ss.length ≤ payload.length := by
  intro ss
  induction ss with
  | nil =>
    intro payload h
    rw [encode_symbols] at h
    injection h with h1
    rw [← h1]
    simp
  | cons s rest ih =>
    intro payload h
    rw [encode_symbols] at h
    cases hfind : dict_find (symbol_prefix_map t) s with
    | none => rw [hfind] at h; exact absurd h (by simp)
    | some cw =>
      rw [hfind] at h
      cases hrec : encode_symbols (symbol_prefix_map t) rest with
      | error e => rw [hrec] at h; exact absurd h (by simp)
      | ok tail =>
        rw [hrec] at h
        injection h with h1
        obtain ⟨q, hq1, hlead⟩ := spm_helper_mem t [] s cw (dict_find_mem _ _ _ hfind)
        rw [List.nil_append] at hq1
        subst hq1
        have hcwne : cw ≠ [] := by subst ht; exact leadsToLeaf_ne_nil _ _ _ _ _ hlead
        have hcw1 : 1 ≤ cw.length := by
          cases cw with
          | nil => exact absurd rfl hcwne
          | cons _ _ => simp
        have hrecle := ih tail hrec
        rw [← h1, List.length_append, List.length_cons]
        omega

theorem decode_trunc (t : HuffmanCodeTree) (c0 : Option Nat) (l0 r0 : HuffmanCodeTree)
    (ht : t = .nonLeaf c0 l0 r0) :
    ∀ ss payload m fuel,
      encode_symbols (symbol_prefix_map t) ss = .ok payload →
      m < payload.length → ss.length ≤ fuel →
      decodeLoop (forget_counts t) fuel (payload.take m) = some (.error .truncatedInput) ∨
      ∃ k, k < ss.length ∧
        decodeLoop (forget_counts t) fuel (payload.take m) = some (.ok (ss.take k)) := by
  intro ss
  induction ss with
  | nil =>
    intro payload m fuel h hm _
    rw [encode_symbols] at h
    injection h with h1
    rw [← h1] at hm
    simp at hm
  | cons s rest ih =>
    intro payload m fuel h hm hfuel
    rw [encode_symbols] at h
    cases hfind : dict_find (symbol_prefix_map t) s with
    | none => rw [hfind] at h; exact absurd h (by simp)
    | some cw =>
      rw [hfind] at h
      cases hrec : encode_symbols (symbol_prefix_map t) rest with
      | error e => rw [hrec] at h; exact absurd h (by simp)
      | ok tail =>
        rw [hrec] at h
        injection h with h1
        subst h1
        obtain ⟨q, hq1, hlead⟩ := spm_helper_mem t [] s cw (dict_find_mem _ _ _ hfind)
        rw [List.nil_append] at hq1
        subst hq1
        have hlead2 : leadsToLeaf (forget_counts t) cw s := leadsToLeaf_forget t cw s hlead
        have hcwne : cw ≠ [] := by subst ht; exact leadsToLeaf_ne_nil _ _ _ _ _ hlead
        have hfuel1 : 1 ≤ fuel := by
          rw [List.length_cons] at hfuel
          omega
        obtain ⟨f, rfl⟩ : ∃ f, fuel = f + 1 := ⟨fuel - 1, by omega⟩
        rw [List.take_append_eq_append_take]
        by_cases hmc : m < cw.length
        · have hz : m - cw.length = 0 := by omega
          rw [hz, List.take_zero, List.append_nil]
          cases m with
          | zero =>
            rw [List.take_zero]
            exact Or.inr ⟨0, by simp, decodeLoop_nil _ _⟩
          | succ m2 =>
            left
            have hdec : decodeOne (forget_counts t) (cw.take (m2 + 1)) = .error .truncatedInput :=
              decodeOne_cut (forget_counts t) cw s (m2 + 1) hlead2 hmc
            obtain ⟨b, cw2, rfl⟩ : ∃ b cw2, cw = b :: cw2 := by
              cases cw with
              | nil => exact absurd rfl hcwne
              | cons b cw2 => exact ⟨b, cw2, rfl⟩
            rw [List.take_succ_cons] at hdec ⊢
            rw [decodeLoop_cons]
            simp only [hdec]
        · have hcwle : cw.length ≤ m := by omega
          rw [List.take_of_length_le hcwle]
          have hm2 : m - cw.length < tail.length := by
            rw [List.length_append] at hm
            omega
          have hdec : decodeOne (forget_counts t) (cw ++ tail.take (m - cw.length)) =
              .ok (s, tail.take (m - cw.length)) :=
            decodeOne_path (forget_counts t) cw s _ hlead2
          obtain ⟨b, cw2, rfl⟩ : ∃ b cw2, cw = b :: cw2 := by
            cases cw with
            | nil => exact absurd rfl hcwne
            | cons b cw2 => exact ⟨b, cw2, rfl⟩
          rw [List.cons_append] at hdec ⊢
          rw [decodeLoop_cons]
          simp only [hdec]
          have hfrest : rest.length ≤ f := by
            rw [List.length_cons] at hfuel
            omega
          rcases ih tail (m - (b :: cw2).length) f hrec hm2 hfrest with herr | ⟨k, hk, hok⟩
          · left
            simp only [herr]
          · right
            refine ⟨k + 1, by rw [List.length_cons]; omega, ?_⟩
            simp only [hok, List.take_succ_cons]

/-! Liveness-mask lemmas: the run-length transform round-trips and the
textual reader accepts exactly digit strings. -/

theorem to_rle_ne_nil (m : List Bool) : LivenessMask.to_rle m ≠ [] := by
  induction m with
  | nil => simp [LivenessMask.to_rle]
  | cons b rest ih =>
    cases b with
    | false =>
      rw [LivenessMask.to_rle]
      cases h : LivenessMask.to_rle rest with
      | nil => simp
      | cons r rs => simp
    | true => simp [LivenessMask.to_rle]

theorem from_rle_bits_succ (r : Nat) (rs : List Nat) :
    LivenessMask.from_rle_bits ((r + 1) :: rs) = false :: LivenessMask.from_rle_bits (r :: rs) := by
  cases rs with
  | nil => simp only [LivenessMask.from_rle_bits, List.replicate_succ]
  | cons s rest =>
    simp only [LivenessMask.from_rle_bits, List.replicate_succ, List.cons_append]

theorem from_rle_bits_to_rle (m : List Bool) :
    LivenessMask.from_rle_bits (LivenessMask.to_rle m) = m := by
  induction m with
  | nil => rfl
  | cons b rest ih =>
    cases b with
    | false =>
      rw [LivenessMask.to_rle]
      cases h : LivenessMask.to_rle rest with
      | nil => exact absurd h (to_rle_ne_nil rest)
      | cons r rs =>
        rw [h] at ih
        simp only [from_rle_bits_succ, ih]
    | true =>
      cases h : LivenessMask.to_rle rest with
      | nil => exact absurd h (to_rle_ne_nil rest)
      | cons r rs =>
        rw [h] at ih
        simp only [LivenessMask.to_rle, h, LivenessMask.from_rle_bits, List.replicate,
          List.nil_append, ih]

theorem from_bit_string_append (a b : List Char) (y : List Bool)
    (hb : LivenessMask.from_bit_string b = .ok y) :
    ∀ x, LivenessMask.from_bit_string a = .ok x →
      LivenessMask.from_bit_string (a ++ b) = .ok (x ++ y) := by
  induction a with
  | nil =>
    intro x ha
    rw [LivenessMask.from_bit_string] at ha
    injection ha with h1
    subst h1
    simpa using hb
  | cons c rest ih =>
    intro x ha
    rw [LivenessMask.from_bit_string] at ha
    cases hcb : LivenessMask.char_bit c with
    | error e => rw [hcb] at ha; exact absurd ha (by simp)
    | ok bb =>
      rw [hcb] at ha
      cases hrec : LivenessMask.from_bit_string rest with
      | error e => rw [hrec] at ha; exact absurd ha (by simp)
      | ok bs =>
        rw [hrec] at ha
        injection ha with h1
        subst h1
        rw [List.cons_append, LivenessMask.from_bit_string, hcb]
        simp only [ih bs hrec, List.cons_append]

theorem from_bit_string_replicate_zero (r : Nat) :
    LivenessMask.from_bit_string (List.replicate r '0') = .ok (List.replicate r false) := by
  induction r with
  | zero => rfl
  | succ n ih =>
    rw [List.replicate_succ, List.replicate_succ, LivenessMask.from_bit_string,
      show LivenessMask.char_bit '0' = .ok false from rfl]
    simp only [ih]

theorem from_rle_eq_bits (rle : List Nat) :
    LivenessMask.from_rle rle = .ok (LivenessMask.from_rle_bits rle) := by
  induction rle with
  | nil => rfl
  | cons r tail ih =>
    cases tail with
    | nil =>
      rw [LivenessMask.from_rle]
      simp only [LivenessMask.rle_chars, LivenessMask.from_rle_bits]
      exact from_bit_string_replicate_zero r
    | cons s rest =>
      rw [LivenessMask.from_rle] at ih
      rw [LivenessMask.from_rle]
      simp only [LivenessMask.rle_chars, LivenessMask.from_rle_bits]
      refine from_bit_string_append _ _ _ ?_ _ (from_bit_string_replicate_zero r)
      rw [LivenessMask.from_bit_string, show LivenessMask.char_bit '1' = .ok true from rfl]
      simp only [ih]

theorem from_bit_string_error_iff (s : List Char) :
    LivenessMask.from_bit_string s = .error .invalidInput ↔
      ∃ c ∈ s, LivenessMask.char_decimal c = none := by
  induction s with
  | nil =>
    constructor
    · intro h; exact absurd h (by rw [LivenessMask.from_bit_string]; simp)
    · rintro ⟨c, hc, _⟩; simp at hc
  | cons c rest ih =>
    rw [LivenessMask.from_bit_string]
    cases hd : LivenessMask.char_decimal c with
    | none =>
      rw [show LivenessMask.char_bit c = .error .invalidInput from by
        rw [LivenessMask.char_bit, hd]]
      constructor
      · intro _
        exact ⟨c, List.mem_cons_self c rest, hd⟩
      · intro _
        rfl
    | some v =>
      rw [show LivenessMask.char_bit c = .ok (decide (v ≠ 0)) from by
        rw [LivenessMask.char_bit, hd]]
      cases hrec : LivenessMask.from_bit_string rest with
      | error e =>
        constructor
        · intro h
          injection h with h1
          subst h1
          obtain ⟨c0, hc0, hb0⟩ := ih.mp hrec
          exact ⟨c0, List.mem_cons_of_mem c hc0, hb0⟩
        · rintro ⟨c0, hc0, hb0⟩
          rcases List.mem_cons.mp hc0 with rfl | hmem
          · rw [hd] at hb0; exact absurd hb0 (by simp)
          · have := ih.mpr ⟨c0, hmem, hb0⟩
            rw [hrec] at this
            injection this with h1
            rw [h1]
      | ok bs =>
        constructor
        · intro h; exact absurd h (by simp)
        · rintro ⟨c0, hc0, hb0⟩
          rcases List.mem_cons.mp hc0 with rfl | hmem
          · rw [hd] at hb0; exact absurd hb0 (by simp)
          · have := ih.mpr ⟨c0, hmem, hb0⟩
            rw [hrec] at this
            exact absurd this (by simp)

theorem from_bit_string_mask_repr (m : List Bool) :
    LivenessMask.from_bit_string (LivenessMask.mask_repr m) = .ok m := by
  induction m with
  | nil => rfl
  | cons b rest ih =>
    cases b with
    | false =>
      show LivenessMask.from_bit_string ('0' :: LivenessMask.mask_repr rest) = _
      rw [LivenessMask.from_bit_string, show LivenessMask.char_bit '0' = .ok false from rfl]
      simp only [ih]
    | true =>
      show LivenessMask.from_bit_string ('1' :: LivenessMask.mask_repr rest) = _
      rw [LivenessMask.from_bit_string, show LivenessMask.char_bit '1' = .ok true from rfl]
      simp only [ih]

/-! Truncating a compressed stream: the decoder errors or silently returns
a strict prefix of the original symbols, never the full list. -/

theorem huffman_truncation (symbols : List Nat) (bits : List Bool) (c fuel : Nat)
    (hne : symbols ≠ []) (hc : huffman_compress symbols = .ok bits)
    (hcpos : 0 < c) (hcle : c ≤ bits.length) (hfuel : bits.length ≤ fuel) :
    huffman_decompress (bits.take (bits.length - c)) fuel = some (.error .truncatedInput) ∨
    ∃ k, k < symbols.length ∧
      huffman_decompress (bits.take (bits.length - c)) fuel = some (.ok (symbols.take k)) := by
  rw [huffman_compress] at hc
  split at hc
  · exact absurd hc (by simp)
  · rename_i t hfs
    split at hc
    · exact absurd hc (by simp)
    · rename_i payload henc
      injection hc with hbits
      subst hbits
      have hlens : (serialize t ++ payload).length = (serialize t).length + payload.length := by
        simp
      by_cases hlt : (serialize t ++ payload).length - c < (serialize t).length
      · have htake : (serialize t ++ payload).take ((serialize t ++ payload).length - c)
            = (serialize t).take ((serialize t ++ payload).length - c) := by
          rw [List.take_append_eq_append_take,
            Nat.sub_eq_zero_of_le (le_of_lt hlt), List.take_zero, List.append_nil]
        rw [htake]
        have hsplit :
            (serialize t).take ((serialize t ++ payload).length - c) ++
              (serialize t).drop ((serialize t ++ payload).length - c) = serialize t :=
          List.take_append_drop _ (serialize t)
        have hdne : (serialize t).drop ((serialize t ++ payload).length - c) ≠ [] := by
          intro h0
          have := congrArg List.length h0
          simp only [List.length_drop, List.length_nil] at this
          omega
        rcases parseTree_cut t _ _
            (((serialize t).take ((serialize t ++ payload).length - c)).length)
            hsplit hdne le_rfl with herr | ⟨u, hok⟩
        · left
          rw [huffman_decompress, HuffmanCodeTree.parse]
          simp only [herr]
        · right
          refine ⟨0, List.length_pos.mpr hne, ?_⟩
          rw [huffman_decompress, HuffmanCodeTree.parse]
          simp only [hok, decodeLoop_nil, List.take_zero]
      · push_neg at hlt
        have hm : (serialize t ++ payload).length - c - (serialize t).length < payload.length := by
          omega
        have htake : (serialize t ++ payload).take ((serialize t ++ payload).length - c)
            = serialize t ++
              payload.take ((serialize t ++ payload).length - c - (serialize t).length) := by
          rw [List.take_append_eq_append_take, List.take_of_length_le hlt]
        rw [htake]
        cases t with
        | leaf c0 s0 =>
          have hpl := encode_symbols_leaf c0 s0 symbols payload henc
          subst hpl
          simp at hm
        | nonLeaf c0 l0 r0 =>
          rw [huffman_decompress, parse_serialize]
          have hsfuel : symbols.length ≤ fuel := by
            have h2 := encode_symbols_length (.nonLeaf c0 l0 r0) c0 l0 r0 rfl symbols payload henc
            omega
          exact decode_trunc (.nonLeaf c0 l0 r0) c0 l0 r0 rfl symbols payload
            ((serialize (HuffmanCodeTree.nonLeaf c0 l0 r0) ++ payload).length - c -
              (serialize (HuffmanCodeTree.nonLeaf c0 l0 r0)).length)
            fuel henc hm hsfuel

/-! Claims. -/

/-- C1: the claimed property `huffman_decompress (huffman_compress symbols) =
symbols` for every non-empty symbol sequence fails on the code for any
sequence whose symbols are all identical: the single-leaf tree assigns the
empty codeword, so the payload is empty and the decode loop exits at once.
At the failing input `[7]` the code compresses to just the serialized leaf
and decompresses that to the empty list, not `[7]`. -/
theorem C1_roundtrip_single_distinct_fails :
    huffman_compress [7] = .ok [true, false, false, false, true, true, true, true] ∧
    huffman_decompress [true, false, false, false, true, true, true, true] 8 = some (.ok []) ∧
    ([] : List Nat) ≠ [7] :=
  ⟨rfl, rfl, by decide⟩

/-- C2: `huffman_compress [5, 5, 5, 5]` does build a single-leaf tree whose
only codeword is the empty bit sequence, and the output is exactly the
serialized tree; but `huffman_decompress` of that output returns `[]`, not
`[5, 5, 5, 5]` as claimed, because the `while bits` loop never runs on an
empty payload. -/
theorem C2_degenerate_tree :
    HuffmanCodeTree.for_symbols [5, 5, 5, 5] = .ok (.leaf (some 4) 5) ∧
    dict_find (symbol_prefix_map (.leaf (some 4) 5)) 5 = some [] ∧
    huffman_compress [5, 5, 5, 5] = .ok (serialize (.leaf (some 4) 5)) ∧
    huffman_decompress (serialize (.leaf (some 4) 5)) 8 = some (.ok []) ∧
    ([] : List Nat) ≠ [5, 5, 5, 5] :=
  ⟨rfl, rfl, rfl, rfl, by decide⟩

/-- C3: for every Huffman code tree `t` and trailing bits `rest`, parsing
`serialize t ++ rest` consumes exactly the serialized bits, returns the
tree with the same topology and leaf symbols but all weights unknown, and
leaves exactly `rest`. -/
theorem C3_parse_inverts_serialize (t : HuffmanCodeTree) (rest : List Bool) :
    HuffmanCodeTree.parse (serialize t ++ rest) = .ok (forget_counts t, rest) :=
  parse_serialize t rest

/-- C4 counterexample: truncating the compressed form of `[0, 1]` by one
trailing bit does not make `huffman_decompress` fail; it silently returns
the shorter sequence `[0]`. -/
theorem C4_truncation_cex :
    huffman_compress [0, 1] = .ok [false, true, false, true, true, true, true, true, false] ∧
    huffman_decompress [false, true, false, true, true, true, true, true] 8 = some (.ok [0]) ∧
    ([0] : List Nat) ≠ [0, 1] :=
  ⟨rfl, rfl, by decide⟩

/-- C4 (amended): truncating a compressed bitstream by any non-zero number
of trailing bits makes `huffman_decompress` either fail with TruncatedInput
or silently return a strict prefix of the original symbol sequence — never
the full original. -/
theorem C4_truncation (symbols : List Nat) (bits : List Bool) (c fuel : Nat)
    (hne : symbols ≠ []) (hc : huffman_compress symbols = .ok bits)
    (hcpos : 0 < c) (hcle : c ≤ bits.length) (hfuel : bits.length ≤ fuel) :
    huffman_decompress (bits.take (bits.length - c)) fuel = some (.error .truncatedInput) ∨
    ∃ k, k < symbols.length ∧
      huffman_decompress (bits.take (bits.length - c)) fuel = some (.ok (symbols.take k)) :=
  huffman_truncation symbols bits c fuel hne hc hcpos hcle hfuel

/-- Witness for C4 at `symbols = [0, 1]`, one bit truncated, fuel 9. -/
theorem C4_truncation_witness :
    huffman_decompress
        (List.take ([false, true, false, true, true, true, true, true, false].length - 1)
          [false, true, false, true, true, true, true, true, false]) 9
      = some (.error .truncatedInput) ∨
    ∃ k, k < ([0, 1] : List Nat).length ∧
      huffman_decompress
          (List.take ([false, true, false, true, true, true, true, true, false].length - 1)
            [false, true, false, true, true, true, true, true, false]) 9
        = some (.ok (([0, 1] : List Nat).take k)) :=
  C4_truncation [0, 1] [false, true, false, true, true, true, true, true, false] 1 9
    (by decide) rfl (by decide) (by decide) (by decide)

/-- C5: reading back the run-length form reproduces every mask exactly,
including the empty, the all-false and the all-true mask. -/
theorem C5_rle_roundtrip (m : List Bool) :
    LivenessMask.from_rle (LivenessMask.to_rle m) = .ok m := by
  rw [from_rle_eq_bits, from_rle_bits_to_rle]

/-- C6 counterexample: for the mask with textual form "01001010" the code's
`to_rle` returns `[1, 2, 1, 1]` — four runs, one per `1` plus one — not the
five-element `[1, 2, 1, 1, 0]` claimed by the spec (which even contradicts
the spec's own `count(true) + 1` length invariant). -/
theorem C6_to_rle_example_cex :
    LivenessMask.from_bit_string ['0', '1', '0', '0', '1', '0', '1', '0']
      = .ok [false, true, false, false, true, false, true, false] ∧
    LivenessMask.to_rle [false, true, false, false, true, false, true, false] = [1, 2, 1, 1] ∧
    ([1, 2, 1, 1] : List Nat) ≠ [1, 2, 1, 1, 0] :=
  ⟨rfl, rfl, by decide⟩

/-- C6 (amended): for the mask with textual form "01001010" (total 8,
live 3), `to_rle` returns exactly `[1, 2, 1, 1]`, whose length is
live + 1. -/
theorem C6_to_rle_example :
    LivenessMask.from_bit_string ['0', '1', '0', '0', '1', '0', '1', '0']
      = .ok [false, true, false, false, true, false, true, false] ∧
    LivenessMask.to_rle [false, true, false, false, true, false, true, false] = [1, 2, 1, 1] ∧
    (LivenessMask.to_rle [false, true, false, false, true, false, true, false]).length = 3 + 1 :=
  ⟨rfl, rfl, rfl⟩

/-- C7: building a Huffman code tree from the empty symbol sequence fails
with InvalidInput (the empty forest has no front tree to return). -/
theorem C7_empty_symbols : HuffmanCodeTree.for_symbols [] = .error .invalidInput := rfl

/-- C8 counterexample: `from_bit_string` does not reject every character
other than `0` and `1` — the digit `2` is accepted and read as a live bit,
and so is any other Unicode decimal digit, such as the Arabic-Indic three
(live) and zero (dead), because Python's `bool(int(c))` succeeds on every
decimal digit. -/
theorem C8_from_text_cex :
    LivenessMask.from_bit_string ['2'] = .ok [true] ∧ '2' ≠ '0' ∧ '2' ≠ '1' ∧
    LivenessMask.from_bit_string ['٣', '٠'] = .ok [true, false] ∧
    '٣' ≠ '0' ∧ '٣' ≠ '1' ∧ '٠' ≠ '0' ∧ '٠' ≠ '1' :=
  ⟨rfl, by decide, by decide, rfl, by decide, by decide, by decide, by decide⟩

/-- C8 (amended): `from_bit_string` fails with InvalidInput exactly when the
input contains a character that is not a Unicode decimal digit; every
decimal digit is accepted, a zero-valued digit reading as dead and any
other digit as live, and on the textual rendering of any mask it is an
exact inverse. -/
theorem C8_from_text :
    (∀ s : List Char, LivenessMask.from_bit_string s = .error .invalidInput ↔
      ∃ c ∈ s, LivenessMask.char_decimal c = none) ∧
    (∀ m : List Bool, LivenessMask.from_bit_string (LivenessMask.mask_repr m) = .ok m) :=
  ⟨from_bit_string_error_iff, from_bit_string_mask_repr⟩

/-- Witness for C8: a letter is rejected, and the rendering of a sample
mask is read back exactly. -/
theorem C8_from_text_witness :
    LivenessMask.from_bit_string ['a'] = .error .invalidInput ∧
    LivenessMask.from_bit_string (LivenessMask.mask_repr [true, false, true])
      = .ok [true, false, true] :=
  ⟨(C8_from_text.1 ['a']).mpr ⟨'a', by decide, by decide⟩, C8_from_text.2 [true, false, true]⟩

/-- C9: the codeword map of any tree built by `for_symbols` is prefix-free:
codewords of two distinct symbols are never prefixes of one another. -/
theorem C9_prefix_free (symbols : List Nat) (t : HuffmanCodeTree) (a b : Nat)
    (pa pb : List Bool) (_hbuilt : HuffmanCodeTree.for_symbols symbols = .ok t)
    (ha : dict_find (symbol_prefix_map t) a = some pa)
    (hb : dict_find (symbol_prefix_map t) b = some pb) (hab : a ≠ b) :
    ¬ pa <+: pb := by
  intro hpre
  obtain ⟨qa, hqa, hla⟩ := spm_helper_mem t [] a pa (dict_find_mem _ _ _ ha)
  obtain ⟨qb, hqb, hlb⟩ := spm_helper_mem t [] b pb (dict_find_mem _ _ _ hb)
  rw [List.nil_append] at hqa hqb
  subst hqa
  subst hqb
  exact hab (leads_unique t pa pb a b hla hlb hpre).2

/-- Witness for C9 on the tree built from `[0, 1]`. -/
theorem C9_prefix_free_witness : ¬ ([true] : List Bool) <+: [false] :=
  C9_prefix_free [0, 1] (.nonLeaf (some 2) (.leaf (some 1) 1) (.leaf (some 1) 0)) 0 1
    [true] [false] rfl rfl rfl (by decide)

/-- C10: when the parsed tree is a single leaf and bits remain, the decode
loop consumes nothing and never terminates: the fueled model returns `none`
for every fuel. -/
theorem C10_single_leaf_divergence (bits rest : List Bool) (c : Option Nat) (s : Nat)
    (hp : HuffmanCodeTree.parse bits = .ok (.leaf c s, rest)) (hne : rest ≠ []) :
    ∀ fuel, huffman_decompress bits fuel = none := by
  intro fuel
  rw [huffman_decompress, hp]
  exact decodeLoop_leaf_none c s fuel rest hne

/-- Witness for C10: a serialized lone zero leaf followed by one extra bit. -/
theorem C10_single_leaf_divergence_witness :
    huffman_decompress [true, true, false] 100 = none :=
  C10_single_leaf_divergence [true, true, false] [false] none 0 rfl (by decide) 100

end CommitmentSet
